import Mathlib

/-!
Verification of the driftcheck analysis pipeline and review engine.

Each definition below is a shallow embedding of a function from the Rust
sources (`src/search.rs`, `src/analyzer.rs`, `src/git.rs`, `src/cache.rs`,
`src/tui/app.rs`); the file/line references are given in the doc comments.
Rust `usize` is modelled as `Nat` (no arithmetic here comes near overflow),
`String` as Lean `String`, and `Vec<T>` as `List T`.
-/

namespace Driftcheck

/-! ## Search engine: `DocChunk` and chunk merging (`src/search.rs`) -/

/-- A documentation chunk, mirroring `DocChunk` in `src/llm.rs:239-244`
(`file`, `start_line`, `end_line`, `content`). Content length is modelled
in characters (Rust `String::len` counts bytes; the two agree on ASCII and
the claims here do not depend on the difference). -/
structure DocChunk where
  file : String
  start_line : Nat
  end_line : Nat
  content : String
deriving Repr, DecidableEq

/-- Loop body of `merge_adjacent_chunks` (`src/search.rs:245-266`): `last` is
the chunk currently sitting at the tail of `merged` (Rust's `merged.last_mut()`);
a following chunk in the same file whose start line is within 5 of `last`'s
end line is folded into `last`, extending the end line and concatenating the
content with the `\n...\n` separator. -/
def mergeGo (last : DocChunk) : List DocChunk → List DocChunk
  | [] => [last]
  | c :: rest =>
    if last.file = c.file ∧ c.start_line ≤ last.end_line + 5 then
      mergeGo { last with
                  end_line := c.end_line,
                  content := last.content ++ "\n...\n" ++ c.content } rest
    else
      last :: mergeGo c rest

/-- `merge_adjacent_chunks` (`src/search.rs:245-266`). -/
def merge_adjacent_chunks : List DocChunk → List DocChunk
  | [] => []
  | c :: rest => mergeGo c rest

/-- Two adjacent chunks that the merge step would leave separate: different
files, or a gap of more than 5 lines (the negation of the merge condition in
`src/search.rs:255`). -/
def farApart (a b : DocChunk) : Prop :=
  ¬ (a.file = b.file ∧ b.start_line ≤ a.end_line + 5)

instance (a b : DocChunk) : Decidable (farApart a b) :=
  inferInstanceAs (Decidable (¬ _))

lemma mergeGo_head_eq (l : List DocChunk) : ∀ last : DocChunk,
    ∃ c' tail, mergeGo last l = c' :: tail ∧
      c'.file = last.file ∧ c'.start_line = last.start_line := by
  induction l with
  | nil => intro last; exact ⟨last, [], rfl, rfl, rfl⟩
  | cons c rest ih =>
    intro last
    by_cases h : last.file = c.file ∧ c.start_line ≤ last.end_line + 5
    · rw [mergeGo, if_pos h]
      obtain ⟨c', t, he, h1, h2⟩ := ih _
      exact ⟨c', t, he, h1, h2⟩
    · rw [mergeGo, if_neg h]
      exact ⟨last, mergeGo c rest, rfl, rfl, rfl⟩

lemma mergeGo_chain_far (l : List DocChunk) : ∀ last : DocChunk,
    List.Chain' farApart (mergeGo last l) := by
  induction l with
  | nil => intro last; simp [mergeGo]
  | cons c rest ih =>
    intro last
    by_cases h : last.file = c.file ∧ c.start_line ≤ last.end_line + 5
    · rw [mergeGo, if_pos h]; exact ih _
    · rw [mergeGo, if_neg h]
      obtain ⟨c', t, he, h1, h2⟩ := mergeGo_head_eq rest c
      rw [he]
      refine List.Chain'.cons ?_ (he ▸ ih c)
      unfold farApart
      rw [h1, h2]
      exact h

lemma mergeGo_of_chain_far (l : List DocChunk) : ∀ c : DocChunk,
    List.Chain' farApart (c :: l) → mergeGo c l = c :: l := by
  induction l with
  | nil => intro c _; rfl
  | cons d rest ih =>
    intro c hch
    rw [List.chain'_cons] at hch
    rw [mergeGo, if_neg hch.1]
    rw [ih d hch.2]

/-- C9: the chunk merge step of the search engine is idempotent — applying
`merge_adjacent_chunks` to an already-merged sequence returns it unchanged. -/
theorem merge_adjacent_chunks_idempotent (chunks : List DocChunk) :
    merge_adjacent_chunks (merge_adjacent_chunks chunks) =
      merge_adjacent_chunks chunks := by
  cases chunks with
  | nil => rfl
  | cons c rest =>
    show merge_adjacent_chunks (mergeGo c rest) = mergeGo c rest
    obtain ⟨c', t, he, -, -⟩ := mergeGo_head_eq rest c
    have hch : List.Chain' farApart (c' :: t) := he ▸ mergeGo_chain_far rest c
    rw [he]
    exact mergeGo_of_chain_far t c' hch

/-! ### Ordering, deduplication and the chunk post-processing pipeline
(`find_relevant_docs`, `src/search.rs:17-80`) -/

/-- `start_line ≤ end_line`, the `DocChunk` invariant stated in the data model. -/
def wfChunk (c : DocChunk) : Prop := c.start_line ≤ c.end_line

instance (c : DocChunk) : Decidable (wfChunk c) :=
  inferInstanceAs (Decidable (_ ≤ _))

/-- The sort order used in `src/search.rs:72-74`:
`a.file.cmp(&b.file).then(a.start_line.cmp(&b.start_line))`. -/
def chunkLe (a b : DocChunk) : Prop :=
  a.file < b.file ∨ (a.file = b.file ∧ a.start_line ≤ b.start_line)

instance (a b : DocChunk) : Decidable (chunkLe a b) :=
  inferInstanceAs (Decidable (_ ∨ _))

lemma chunkLe_total (a b : DocChunk) : chunkLe a b ∨ chunkLe b a := by
  rcases lt_trichotomy a.file b.file with h | h | h
  · exact Or.inl (Or.inl h)
  · rcases Nat.le_total a.start_line b.start_line with h2 | h2
    · exact Or.inl (Or.inr ⟨h, h2⟩)
    · exact Or.inr (Or.inr ⟨h.symm, h2⟩)
  · exact Or.inr (Or.inl h)

lemma chunkLe_trans {a b c : DocChunk} (hab : chunkLe a b) (hbc : chunkLe b c) :
    chunkLe a c := by
  rcases hab with h1 | ⟨e1, l1⟩
  · rcases hbc with h2 | ⟨e2, l2⟩
    · exact Or.inl (h1.trans h2)
    · exact Or.inl (by rw [← e2]; exact h1)
  · rcases hbc with h2 | ⟨e2, l2⟩
    · exact Or.inl (by rw [e1]; exact h2)
    · exact Or.inr ⟨e1.trans e2, l1.trans l2⟩

instance : IsTotal DocChunk chunkLe := ⟨chunkLe_total⟩
instance : IsTrans DocChunk chunkLe := ⟨fun _ _ _ => chunkLe_trans⟩

/-- Global deduplication by `(file, start_line)`, first occurrence wins,
mirroring the `HashSet` `seen` in `src/search.rs:49-60`. -/
def dedupGo (seen : List (String × Nat)) : List DocChunk → List DocChunk
  | [] => []
  | c :: rest =>
    if (c.file, c.start_line) ∈ seen then dedupGo seen rest
    else c :: dedupGo ((c.file, c.start_line) :: seen) rest

def dedupChunks (l : List DocChunk) : List DocChunk := dedupGo [] l

lemma dedupGo_sub {c : DocChunk} :
    ∀ (l : List DocChunk) (seen : List (String × Nat)),
      c ∈ dedupGo seen l → c ∈ l := by
  intro l
  induction l with
  | nil => intro seen h; exact absurd h (by simp [dedupGo])
  | cons d rest ih =>
    intro seen h
    rw [dedupGo] at h
    split at h
    · exact List.mem_cons_of_mem _ (ih _ h)
    · rcases List.mem_cons.mp h with h | h
      · exact h ▸ List.mem_cons_self _ _
      · exact List.mem_cons_of_mem _ (ih _ h)

/-- The chunk post-processing phase of `find_relevant_docs`
(`src/search.rs:47-79`): the per-query search results are joined in task
order, deduplicated globally by `(file, start_line)` (first occurrence wins),
sorted by `(file, start_line)`, and the adjacent same-file chunks are merged. -/
def searchChunkPipeline (results : List (List DocChunk)) : List DocChunk :=
  merge_adjacent_chunks (List.insertionSort chunkLe (dedupChunks results.flatten))

lemma chunkLe_congr_left {a a' b : DocChunk} (hf : a'.file = a.file)
    (hs : a'.start_line = a.start_line) (h : chunkLe a b) : chunkLe a' b := by
  unfold chunkLe at *
  rw [hf, hs]
  exact h

lemma chunkLe_congr_right {a b b' : DocChunk} (hf : b'.file = b.file)
    (hs : b'.start_line = b.start_line) (h : chunkLe a b) : chunkLe a b' := by
  unfold chunkLe at *
  rw [hf, hs]
  exact h

lemma mergeGo_wf_sorted (l : List DocChunk) : ∀ last : DocChunk,
    wfChunk last → (∀ c ∈ l, wfChunk c) → List.Chain' chunkLe (last :: l) →
    (∀ c ∈ mergeGo last l, wfChunk c) ∧ List.Chain' chunkLe (mergeGo last l) := by
  induction l with
  | nil =>
    intro last hwl _ _
    constructor
    · intro c hc
      rw [mergeGo, List.mem_singleton] at hc
      exact hc ▸ hwl
    · simp [mergeGo]
  | cons c rest ih =>
    intro last hwl hwf hch
    rw [List.chain'_cons] at hch
    obtain ⟨hlc, hch'⟩ := hch
    by_cases h : last.file = c.file ∧ c.start_line ≤ last.end_line + 5
    · rw [mergeGo, if_pos h]
      -- the merged chunk keeps `last`'s file and start line and takes `c`'s end line
      have hls : last.start_line ≤ c.start_line := by
        rcases hlc with hlt | ⟨-, hle⟩
        · exact absurd (h.1 ▸ hlt) (lt_irrefl _)
        · exact hle
      have hwl' : wfChunk { last with
                    end_line := c.end_line,
                    content := last.content ++ "\n...\n" ++ c.content } := by
        unfold wfChunk
        exact hls.trans (hwf c (List.mem_cons_self _ _))
      refine ih _ hwl' (fun d hd => hwf d (List.mem_cons_of_mem _ hd)) ?_
      rw [List.chain'_cons']
      refine ⟨fun d hd => ?_, hch'.tail⟩
      have hcd : chunkLe c d := by
        cases rest with
        | nil => simp at hd
        | cons e t =>
          simp only [List.head?_cons, Option.mem_def, Option.some.injEq] at hd
          rw [List.chain'_cons] at hch'
          exact hd ▸ hch'.1
      exact chunkLe_congr_left rfl rfl (chunkLe_trans hlc hcd)
    · rw [mergeGo, if_neg h]
      obtain ⟨hw2, hc2⟩ :=
        ih c (hwf c (List.mem_cons_self _ _))
          (fun d hd => hwf d (List.mem_cons_of_mem _ hd)) hch'
      constructor
      · intro d hd
        rcases List.mem_cons.mp hd with h' | h'
        · exact h' ▸ hwl
        · exact hw2 d h'
      · rw [List.chain'_cons']
        refine ⟨fun d hd => ?_, hc2⟩
        obtain ⟨c', t, he, h1, h2⟩ := mergeGo_head_eq rest c
        rw [he] at hd
        simp only [List.head?_cons, Option.mem_def, Option.some.injEq] at hd
        exact hd ▸ chunkLe_congr_right h1 h2 hlc

/-- C7: in the chunk sequence produced by the search engine's
dedup → sort → merge phase, every chunk is well formed (`start_line ≤
end_line`), the sequence is ordered by `(file, start_line)`, and no two
adjacent chunks of the same file are left within the 5-line merge distance
(in particular no overlapping or out-of-order chunks remain), provided every
parsed input chunk is well formed. -/
theorem search_chunks_ordered_merged (results : List (List DocChunk))
    (hwf : ∀ c ∈ results.flatten, wfChunk c) :
    (∀ c ∈ searchChunkPipeline results, wfChunk c) ∧
    List.Chain' chunkLe (searchChunkPipeline results) ∧
    List.Chain' farApart (searchChunkPipeline results) := by
  have hwf' : ∀ c ∈ List.insertionSort chunkLe (dedupChunks results.flatten), wfChunk c := by
    intro c hc
    rw [List.mem_insertionSort] at hc
    exact hwf c (dedupGo_sub _ _ hc)
  have hsorted : List.Chain' chunkLe
      (List.insertionSort chunkLe (dedupChunks results.flatten)) :=
    (List.sorted_insertionSort chunkLe _).chain'
  unfold searchChunkPipeline
  cases hs : List.insertionSort chunkLe (dedupChunks results.flatten) with
  | nil => simp [merge_adjacent_chunks]
  | cons c rest =>
    rw [hs] at hwf' hsorted
    show (∀ c' ∈ mergeGo c rest, wfChunk c') ∧ _ ∧ _
    obtain ⟨h1, h2⟩ :=
      mergeGo_wf_sorted rest c (hwf' c (List.mem_cons_self _ _))
        (fun d hd => hwf' d (List.mem_cons_of_mem _ hd)) hsorted
    exact ⟨h1, h2, mergeGo_chain_far rest c⟩

/-- Concrete instantiation of `search_chunks_ordered_merged`. -/
theorem search_chunks_ordered_merged_witness :
    (∀ c ∈ [[DocChunk.mk "a.md" 1 2 "x", DocChunk.mk "a.md" 9 10 "y",
             DocChunk.mk "b.md" 4 5 "z"]].flatten, wfChunk c) ∧
    ((∀ c ∈ searchChunkPipeline [[DocChunk.mk "a.md" 1 2 "x",
        DocChunk.mk "a.md" 9 10 "y", DocChunk.mk "b.md" 4 5 "z"]], wfChunk c) ∧
     List.Chain' chunkLe (searchChunkPipeline [[DocChunk.mk "a.md" 1 2 "x",
        DocChunk.mk "a.md" 9 10 "y", DocChunk.mk "b.md" 4 5 "z"]]) ∧
     List.Chain' farApart (searchChunkPipeline [[DocChunk.mk "a.md" 1 2 "x",
        DocChunk.mk "a.md" 9 10 "y", DocChunk.mk "b.md" 4 5 "z"]])) :=
  ⟨by decide, search_chunks_ordered_merged _ (by decide)⟩

/-! ## Analysis pipeline: token-budget truncation
(`truncate_to_budget`, `src/analyzer.rs:124-151`) -/

/-- The sort key of `chunks.sort_by_key(|c| c.content.len())`
(`src/analyzer.rs:131`). -/
def lenLe (a b : DocChunk) : Prop := a.content.length ≤ b.content.length

instance (a b : DocChunk) : Decidable (lenLe a b) :=
  inferInstanceAs (Decidable (_ ≤ _))

/-- The greedy accumulation loop of `truncate_to_budget`
(`src/analyzer.rs:133-149`): `total` is `total_chars`, `res` the accumulator
(in reverse); a chunk that would push the total over the budget stops the
loop, and is included hard-truncated to `budget` characters when it would
have been the very first chunk. -/
def truncateLoop (budget : Nat) : Nat → List DocChunk → List DocChunk → List DocChunk
  | _, res, [] => res.reverse
  | total, res, c :: rest =>
    if budget < total + c.content.length then
      if res.isEmpty then
        [{ c with content := String.mk (c.content.data.take budget) }]
      else res.reverse
    else truncateLoop budget (total + c.content.length) (c :: res) rest

/-- `truncate_to_budget` (`src/analyzer.rs:124-151`): sort ascending by
content length, then accumulate greedily under the `max_tokens * 4`
character budget. -/
def truncate_to_budget (chunks : List DocChunk) (max_tokens : Nat) : List DocChunk :=
  truncateLoop (max_tokens * 4) 0 [] (List.insertionSort lenLe chunks)

def totalContentLen (l : List DocChunk) : Nat :=
  (l.map (fun c => c.content.length)).sum

lemma totalContentLen_reverse (l : List DocChunk) :
    totalContentLen l.reverse = totalContentLen l := by
  unfold totalContentLen
  rw [List.map_reverse, List.sum_reverse]

lemma truncateLoop_le (budget : Nat) :
    ∀ (l : List DocChunk) (total : Nat) (res : List DocChunk),
      totalContentLen res = total → total ≤ budget →
      totalContentLen (truncateLoop budget total res l) ≤ budget := by
  intro l
  induction l with
  | nil =>
    intro total res hres htot
    rw [truncateLoop, totalContentLen_reverse, hres]
    exact htot
  | cons c rest ih =>
    intro total res hres htot
    rw [truncateLoop]
    split
    · split
      · unfold totalContentLen
        simp only [List.map_cons, List.map_nil, List.sum_cons, List.sum_nil]
        have : (String.mk (c.content.data.take budget)).length ≤ budget := by
          show (c.content.data.take budget).length ≤ budget
          rw [List.length_take]
          exact min_le_left _ _
        omega
      · rw [totalContentLen_reverse, hres]; exact htot
    · refine ih _ _ ?_ (by omega)
      unfold totalContentLen at *
      simp only [List.map_cons, List.sum_cons]
      omega

lemma truncateLoop_ne_nil (budget : Nat) :
    ∀ (l : List DocChunk) (total : Nat) (res : List DocChunk),
      (res = [] → l ≠ []) →
      truncateLoop budget total res l ≠ [] := by
  intro l
  induction l with
  | nil =>
    intro total res hne
    rw [truncateLoop]
    intro hrev
    exact hne (by simpa using hrev) rfl
  | cons c rest ih =>
    intro total res hne
    rw [truncateLoop]
    split
    · split
      · exact List.cons_ne_nil _ _
      · next hres =>
          rw [ne_eq, List.reverse_eq_nil_iff]
          intro h
          subst h
          exact hres rfl
    · exact ih _ _ (fun h => absurd h (List.cons_ne_nil _ _))

/-- C4: truncation respects the budget — the total content length of the
returned chunks never exceeds `max_tokens * 4` (so in particular the claimed
exception for the hard-truncated first chunk never makes the total larger
in the character model), and a non-empty chunk list always yields a
non-empty result. -/
theorem truncate_to_budget_spec (chunks : List DocChunk) (max_tokens : Nat) :
    totalContentLen (truncate_to_budget chunks max_tokens) ≤ max_tokens * 4 ∧
    (chunks ≠ [] → truncate_to_budget chunks max_tokens ≠ []) := by
  constructor
  · exact truncateLoop_le _ _ _ _ rfl (Nat.zero_le _)
  · intro hne
    refine truncateLoop_ne_nil _ _ _ _ (fun _ => ?_)
    intro hsort
    exact hne (List.eq_nil_of_length_eq_zero
      (by rw [← List.length_insertionSort lenLe chunks, hsort]; rfl))

/-- Concrete instantiation of `truncate_to_budget_spec`. -/
theorem truncate_to_budget_spec_witness :
    (totalContentLen (truncate_to_budget
        [DocChunk.mk "a.md" 1 2 "hello world", DocChunk.mk "a.md" 9 9 "hi"] 1) ≤ 1 * 4 ∧
     ([DocChunk.mk "a.md" 1 2 "hello world", DocChunk.mk "a.md" 9 9 "hi"] ≠
        ([] : List DocChunk) →
      truncate_to_budget
        [DocChunk.mk "a.md" 1 2 "hello world", DocChunk.mk "a.md" 9 9 "hi"] 1 ≠ [])) ∧
    [DocChunk.mk "a.md" 1 2 "hello world", DocChunk.mk "a.md" 9 9 "hi"] ≠
      ([] : List DocChunk) :=
  ⟨truncate_to_budget_spec _ _, by decide⟩

/-! ## Diff model (`src/git.rs:96-199`)

Rust `str` primitives are embedded as structural recursions over `List Char`
so that all diff parsing is kernel-computable. -/

/-- `startsWithL pat l` models Rust `l.starts_with(pat)`. -/
def startsWithL : List Char → List Char → Bool
  | [], _ => true
  | _ :: _, [] => false
  | p :: ps, c :: cs => p == c && startsWithL ps cs

/-- `strStartsWith s pat` models Rust `s.starts_with(pat)`. -/
def strStartsWith (s pat : String) : Bool := startsWithL pat.data s.data

/-- Body of `splitOnL`: `fuel` bounds the recursion (any `fuel ≥ l.length`
gives the splitting of `l` at each leftmost non-overlapping occurrence of
the non-empty separator `sep`, as Rust `str::split` with a string pattern). -/
def splitOnGo (sep : List Char) : Nat → List Char → List Char → List (List Char)
  | _, [], acc => [acc.reverse]
  | 0, l, acc => [acc.reverse ++ l]
  | fuel + 1, c :: cs, acc =>
    if startsWithL sep (c :: cs) then
      acc.reverse :: splitOnGo sep fuel ((c :: cs).drop sep.length) []
    else
      splitOnGo sep fuel cs (c :: acc)

/-- `rsSplit s sep` models Rust `s.split(sep)` (collected) for a non-empty
string pattern `sep`. -/
def rsSplit (s sep : String) : List String :=
  if sep.data.isEmpty then [s]
  else (splitOnGo sep.data s.data.length s.data []).map String.mk

/-- Strip one trailing `\r`, the line-ending treatment of Rust `str::lines`. -/
def stripCR (l : String) : String :=
  match l.data.getLast? with
  | some '\r' => String.mk l.data.dropLast
  | _ => l

/-- Models Rust `str::lines`: split on `\n`, drop a final empty piece,
strip a trailing `\r` from each line. -/
def rustLines (s : String) : List String :=
  let parts := rsSplit s "\n"
  let parts := if parts.getLast? == some "" then parts.dropLast else parts
  parts.map stripCR

/-- Splits a character list at every character satisfying `p` (separators
dropped, empty groups kept). -/
def splitPL (p : Char → Bool) : List Char → List (List Char)
  | [] => [[]]
  | c :: cs =>
    match splitPL p cs with
    | [] => [[]]
    | g :: gs => if p c then [] :: g :: gs else (c :: g) :: gs

/-- Models Rust `str::split_whitespace`: split on whitespace and drop the
empty pieces. -/
def splitWhitespaceL (s : String) : List String :=
  ((splitPL (fun c => c.isWhitespace) s.data).filter
    (fun g => !g.isEmpty)).map String.mk

/-- Models Rust `str::parse::<usize>`: optional leading `+`, then one or more
ASCII digits (overflow is not modelled — `Nat` is unbounded — and no claim
here depends on it). -/
def parseUsize (s : String) : Option Nat :=
  let t := if startsWithL ['+'] s.data then s.data.drop 1 else s.data
  if t.isEmpty || !(t.all (fun c => c.isDigit)) then none
  else some (t.foldl (fun n c => n * 10 + (c.toNat - 48)) 0)

/-- `DiffHunk` (`src/git.rs:96-104`). -/
structure DiffHunk where
  file : String
  old_start : Nat
  old_count : Nat
  new_start : Nat
  new_count : Nat
  content : String
deriving Repr, DecidableEq

/-- `ParsedDiff` (`src/git.rs:106-111`). -/
structure ParsedDiff where
  files : List String
  hunks : List DiffHunk
  raw : String
deriving Repr, DecidableEq

/-- One `-a,b` / `+c,d` part of a hunk header (`parse_hunk_header` loop body,
`src/git.rs:178-196`): starts are `parse().unwrap_or(0)`, counts are
`parse().unwrap_or(1)` and stay at their previous value when the
comma-separated count is absent. -/
def hunkHeaderFold (acc : Nat × Nat × Nat × Nat) (part : String) :
    Nat × Nat × Nat × Nat :=
  let (os, oc, ns, nc) := acc
  if startsWithL ['-'] part.data && !startsWithL ['-', '-', '-'] part.data then
    let nums := rsSplit (String.mk (part.data.drop 1)) ","
    let os := match nums[0]? with
      | some n0 => (parseUsize n0).getD 0
      | none => os
    let oc := match nums[1]? with
      | some n1 => (parseUsize n1).getD 1
      | none => oc
    (os, oc, ns, nc)
  else if startsWithL ['+'] part.data && !startsWithL ['+', '+', '+'] part.data then
    let nums := rsSplit (String.mk (part.data.drop 1)) ","
    let ns := match nums[0]? with
      | some n0 => (parseUsize n0).getD 0
      | none => ns
    let nc := match nums[1]? with
      | some n1 => (parseUsize n1).getD 1
      | none => nc
    (os, oc, ns, nc)
  else acc

/-- `parse_hunk_header` (`src/git.rs:170-199`). -/
def parse_hunk_header (line : String) : Nat × Nat × Nat × Nat :=
  (splitWhitespaceL line).foldl hunkHeaderFold (0, 1, 0, 1)

/-- The mutable state of the `ParsedDiff::parse` loop (`src/git.rs:114-155`). -/
structure ParseState where
  files : List String
  hunks : List DiffHunk
  currentFile : Option String
  currentHunk : Option DiffHunk
deriving Repr, DecidableEq

/-- One iteration of the `ParsedDiff::parse` line loop (`src/git.rs:120-155`):
a `diff --git` line saves the open hunk and records the path after the first
`" b/"`; an `@@` line saves the open hunk and opens a new one when a file is
current; any other line is appended to the open hunk. -/
def parseLine (st : ParseState) (line : String) : ParseState :=
  if strStartsWith line "diff --git" then
    let hunks := st.hunks ++ st.currentHunk.toList
    match (rsSplit line " b/")[1]? with
    | some bPath =>
        { files := st.files ++ [bPath], hunks := hunks,
          currentFile := some bPath, currentHunk := none }
    | none =>
        { st with hunks := hunks, currentHunk := none }
  else if strStartsWith line "@@" then
    let hunks := st.hunks ++ st.currentHunk.toList
    match st.currentFile with
    | some f =>
        let (os, oc, ns, nc) := parse_hunk_header line
        { st with
            hunks := hunks,
            currentHunk := some ⟨f, os, oc, ns, nc, ""⟩ }
    | none =>
        { st with hunks := hunks, currentHunk := none }
  else
    match st.currentHunk with
    | some h =>
        { st with currentHunk := some { h with content := h.content ++ line ++ "\n" } }
    | none => st

/-- `ParsedDiff::parse` (`src/git.rs:114-167`). -/
def ParsedDiff.parse (diff : String) : ParsedDiff :=
  let st := (rustLines diff).foldl parseLine ⟨[], [], none, none⟩
  { files := st.files, hunks := st.hunks ++ st.currentHunk.toList, raw := diff }

/-- The "new-side" paths read directly off the diff text, one per line that
starts with the per-file marker `diff --git`, in order of appearance:
the text after the first `" b/"` of such a line (up to a following `" b/"`,
matching how the implementation splits). Reference definition for C8. -/
def markerPathsOfDiff (diff : String) : List String :=
  (rustLines diff).filterMap (fun line =>
    if strStartsWith line "diff --git" then (rsSplit line " b/")[1]? else none)

lemma parse_foldl_files (lines : List String) : ∀ st : ParseState,
    ((lines.foldl parseLine st).files) =
      st.files ++ lines.filterMap (fun line =>
        if strStartsWith line "diff --git" then (rsSplit line " b/")[1]? else none) := by
  induction lines with
  | nil => intro st; simp
  | cons line rest ih =>
    intro st
    rw [List.foldl_cons, List.filterMap_cons, ih]
    by_cases h : strStartsWith line "diff --git" = true
    · rw [if_pos h]
      cases hb : (rsSplit line " b/")[1]? with
      | none =>
        show (parseLine st line).files ++ _ = _
        rw [parseLine, if_pos h, hb]
      | some bPath =>
        show (parseLine st line).files ++ _ = _
        rw [parseLine, if_pos h, hb]
        simp
    · rw [if_neg h]
      have hf : (parseLine st line).files = st.files := by
        rw [parseLine, if_neg h]
        split
        · split <;> rfl
        · split <;> rfl
      rw [hf]

/-- C8 counterexample: the claim requires each new-side path to occur at
most once in `parse(diff).files`, but the implementation pushes the path of
every `diff --git` marker without deduplication — a diff text repeating the
same marker twice yields the same path twice. -/
theorem parse_files_dedup_cex :
    (ParsedDiff.parse
        "diff --git a/x b/x\ndiff --git a/x b/x").files = ["x", "x"] ∧
    ¬ (ParsedDiff.parse
        "diff --git a/x b/x\ndiff --git a/x b/x").files.Nodup := by
  constructor
  · rfl
  · decide

/-- C8 amended: `parse(diff).files` is exactly the list of new-side paths
appearing after each `diff --git` marker line, in order of appearance and
with multiplicity (a path repeated in the diff text is repeated in the
list — no deduplication). -/
theorem parse_files_marker_paths (diff : String) :
    (ParsedDiff.parse diff).files = markerPathsOfDiff diff := by
  unfold ParsedDiff.parse markerPathsOfDiff
  show (List.foldl parseLine ⟨[], [], none, none⟩ (rustLines diff)).files = _
  rw [parse_foldl_files]
  rfl

/-! ## Analysis pipeline: `analyze` (`src/analyzer.rs:34-121`)

The collaborators reached through I/O (query cache, language model, search
engine) are passed in as an environment of oracle functions, and `analyze`
additionally returns the trace of collaborator invocations it performed, in
order, so that frame claims ("without invoking X") are statable. -/

/-- `RawIssue` (`src/llm.rs:247-255`). -/
structure RawIssue where
  file : String
  line : Nat
  description : String
  doc_excerpt : String
  suggested_fix : Option String
deriving Repr, DecidableEq

/-- `Issue` (`src/analyzer.rs:12-19`); `PathBuf` is modelled as `String`. -/
structure Issue where
  file : String
  line : Nat
  description : String
  doc_excerpt : String
  suggested_fix : Option String
deriving Repr, DecidableEq

/-- `impl From<RawIssue> for Issue` (`src/analyzer.rs:21-31`). -/
def Issue.ofRaw (raw : RawIssue) : Issue :=
  ⟨raw.file, raw.line, raw.description, raw.doc_excerpt, raw.suggested_fix⟩

/-- A collaborator invocation made by `analyze`. -/
inductive Effect where
  | cacheGet
  | cacheStore
  | llmQueries
  | search
  | llmAnalyze
deriving Repr, DecidableEq

/-- The collaborators of `analyze`, as oracles: `cache::get_queries`,
`llm::generate_search_queries`, `search::find_relevant_docs` (already given
the docs config) and `llm::analyze_consistency`; `cacheEnabled` is
`config.cache.enabled` and `maxContextTokens` is
`config.docs.max_context_tokens`. -/
structure AnalyzeEnv where
  cacheEnabled : Bool
  cacheGet : String → Option (List String)
  llmQueries : String → Except String (List String)
  search : List String → Except String (List DocChunk)
  llmAnalyze : String → List DocChunk → Except String (List RawIssue)
  maxContextTokens : Nat

/-- `analyze` (`src/analyzer.rs:34-121`): parse the diff and stop on an empty
file set; obtain queries from the cache or the language model (storing fresh
ones when caching is enabled — a store failure is absorbed, so the store
oracle needs no return value); stop on empty queries; search; stop on empty
chunks; truncate to the token budget; run consistency analysis and convert
the raw issues. The second component is the invocation trace. -/
def analyze (env : AnalyzeEnv) (diff : String) :
    Except String (List Issue) × List Effect :=
  let parsed := ParsedDiff.parse diff
  if parsed.files.isEmpty then (Except.ok [], [])
  else
    let queriesStep : Except String (List String) × List Effect :=
      if env.cacheEnabled then
        match env.cacheGet diff with
        | some cached => (Except.ok cached, [Effect.cacheGet])
        | none =>
          match env.llmQueries diff with
          | Except.ok qs =>
              (Except.ok qs, [Effect.cacheGet, Effect.llmQueries, Effect.cacheStore])
          | Except.error e => (Except.error e, [Effect.cacheGet, Effect.llmQueries])
      else
        match env.llmQueries diff with
        | Except.ok qs => (Except.ok qs, [Effect.llmQueries])
        | Except.error e => (Except.error e, [Effect.llmQueries])
    match queriesStep with
    | (Except.error e, tr) => (Except.error e, tr)
    | (Except.ok queries, tr) =>
      if queries.isEmpty then (Except.ok [], tr)
      else
        match env.search queries with
        | Except.error e => (Except.error e, tr ++ [Effect.search])
        | Except.ok chunks =>
          if chunks.isEmpty then (Except.ok [], tr ++ [Effect.search])
          else
            let chunks := truncate_to_budget chunks env.maxContextTokens
            match env.llmAnalyze diff chunks with
            | Except.error e =>
                (Except.error e, tr ++ [Effect.search, Effect.llmAnalyze])
            | Except.ok raw =>
                (Except.ok (raw.map Issue.ofRaw),
                 tr ++ [Effect.search, Effect.llmAnalyze])

/-- C6: on a diff with zero changed files `analyze` returns an empty issue
list with an empty invocation trace — the cache, the search engine and the
language model are never invoked. -/
theorem analyze_empty_diff_short_circuits (env : AnalyzeEnv) (diff : String)
    (h : (ParsedDiff.parse diff).files = []) :
    analyze env diff = (Except.ok [], []) := by
  rw [analyze]
  rw [if_pos (by rw [h]; rfl)]

/-- Concrete instantiation of `analyze_empty_diff_short_circuits`: the empty
diff parses to no files, and `analyze` performs no collaborator invocation
on it. -/
theorem analyze_empty_diff_short_circuits_witness :
    (ParsedDiff.parse "").files = [] ∧
    analyze
      { cacheEnabled := true, cacheGet := fun _ => none,
        llmQueries := fun _ => Except.ok ["q"],
        search := fun _ => Except.ok [],
        llmAnalyze := fun _ _ => Except.ok [],
        maxContextTokens := 8000 } "" = (Except.ok [], []) :=
  ⟨rfl, analyze_empty_diff_short_circuits _ _ rfl⟩

/-! ## Query cache: `store_queries` (`src/cache.rs:72-98`)

The filesystem is modelled as a set of directories plus a partial map from
paths to file contents, and the store operation as the sequence of
filesystem states it passes through. `fs::write` is a single direct write
to the destination path; its non-atomicity is modelled at character
granularity: a write that fails midway leaves the destination holding some
proper initial segment of the new content. `cache_key` (a truncated SHA-256
digest, `src/cache.rs:30-35`) is abstracted as the `key` argument — no
claim here depends on the digest value. -/

structure Fs where
  dirs : List String
  files : String → Option String

def setFile (fs : Fs) (p : String) (c : Option String) : Fs :=
  { fs with files := fun q => if q = p then c else fs.files q }

/-- `fs::create_dir_all` guarded by `!cache_dir.exists()`
(`src/cache.rs:76-79`). -/
def mkdirIfAbsent (fs : Fs) (d : String) : Fs :=
  if d ∈ fs.dirs then fs else { fs with dirs := d :: fs.dirs }

/-- Minimal model of `serde_json` string escaping (quote and backslash; the
claims do not depend on the remaining escapes). -/
def jsonEscapeChar (c : Char) : List Char :=
  if c = '"' then ['\\', '"']
  else if c = '\\' then ['\\', '\\']
  else [c]

def jsonStr (s : String) : String :=
  String.mk ('"' :: (s.data.map jsonEscapeChar).flatten ++ ['"'])

def joinSep (sep : String) : List String → String
  | [] => ""
  | [x] => x
  | x :: y :: rest => x ++ sep ++ joinSep sep (y :: rest)

/-- Model of `serde_json::to_string_pretty` on `CacheEntry { queries,
created_at }` (`src/cache.rs:10-14`, `src/cache.rs:89`). -/
def serializeCacheEntry (queries : List String) (created_at : String) : String :=
  let qs := if queries.isEmpty then "[]"
    else "[\n    " ++ joinSep ",\n    " (queries.map jsonStr) ++ "\n  ]"
  "\x7b\n  \"queries\": " ++ qs ++ ",\n  \"created_at\": " ++
    jsonStr created_at ++ "\n\x7d"

/-- The filesystem states passed through by a plain `fs::write(p, content)`:
after truncation the destination holds each initial segment of `content` in
turn, ending with the full content. A write that fails midway stops at one
of these states. -/
def writeStates (fs : Fs) (p : String) (content : String) : List Fs :=
  (List.range (content.length + 1)).map
    (fun k => setFile fs p (some (String.mk (content.data.take k))))

/-- The filesystem states passed through by `store_queries`
(`src/cache.rs:72-98`): create the cache directory if absent, then one
direct `fs::write` of the serialized entry to `<cache_dir>/<key>.json`. -/
def storeQueriesStates (fs : Fs) (cacheDir key : String)
    (queries : List String) (now : String) : List Fs :=
  let fs1 := mkdirIfAbsent fs cacheDir
  let path := cacheDir ++ "/" ++ key ++ ".json"
  fs1 :: writeStates fs1 path (serializeCacheEntry queries now)

lemma mkdirIfAbsent_files (fs : Fs) (d : String) :
    (mkdirIfAbsent fs d).files = fs.files := by
  unfold mkdirIfAbsent
  split <;> rfl

lemma writeStates_getLast? (fs : Fs) (p : String) (content : String) :
    (writeStates fs p content).getLast? = some (setFile fs p (some content)) := by
  unfold writeStates
  rw [List.range_succ, List.map_append, List.map_singleton, List.getLast?_concat]
  have h1 : String.mk (content.data.take content.length) = content := by
    show String.mk (content.data.take content.data.length) = content
    rw [List.take_length]
  rw [h1]

lemma getLast?_cons_of_getLast? {α : Type} (a : α) (l : List α) (b : α)
    (h : l.getLast? = some b) : (a :: l).getLast? = some b := by
  cases l with
  | nil => simp at h
  | cons c t => rw [List.getLast?_cons_cons]; exact h

/-- C5 counterexample: `store_queries` writes directly to the keyed path with
a single `fs::write` (no temporary file, no rename), so a write failing
midway leaves the keyed cache file holding a partial entry: a state in the
store's filesystem trace holds content at the keyed path that is neither the
absent old content nor the full serialized entry. -/
theorem store_queries_atomicity_cex :
    ∃ g ∈ storeQueriesStates ⟨[], fun _ => none⟩ "c" "k" ["q"] "t",
      g.files "c/k.json" ≠ none ∧
      g.files "c/k.json" ≠ some (serializeCacheEntry ["q"] "t") := by
  refine ⟨setFile (mkdirIfAbsent ⟨[], fun _ => none⟩ "c")
      ("c" ++ "/" ++ "k" ++ ".json")
      (some (String.mk ((serializeCacheEntry ["q"] "t").data.take 1))),
    ?_, ?_, ?_⟩
  · refine List.mem_cons_of_mem _ ?_
    refine List.mem_map.mpr ⟨1, List.mem_range.mpr (by decide), rfl⟩
  · decide
  · decide

/-- C5 amended: `store_queries` creates the cache directory if absent,
serializes `\x7bqueries, created_at: now\x7d`, and writes it to the keyed
path with one direct (non-atomic) write: the final state of its filesystem
trace holds the full serialized entry at the keyed path, and every state of
the trace holds either the old content or some initial segment of the
serialized entry — a write failing midway can therefore leave a partial
entry (see the counterexample), but never anything else. -/
theorem store_queries_write_behavior (fs : Fs) (cacheDir key : String)
    (queries : List String) (now : String) :
    (storeQueriesStates fs cacheDir key queries now).getLast? =
      some (setFile (mkdirIfAbsent fs cacheDir)
        (cacheDir ++ "/" ++ key ++ ".json")
        (some (serializeCacheEntry queries now))) ∧
    ∀ g ∈ storeQueriesStates fs cacheDir key queries now,
      g.dirs = (mkdirIfAbsent fs cacheDir).dirs ∧
      (g.files (cacheDir ++ "/" ++ key ++ ".json") =
          fs.files (cacheDir ++ "/" ++ key ++ ".json") ∨
       ∃ k ≤ (serializeCacheEntry queries now).length,
         g.files (cacheDir ++ "/" ++ key ++ ".json") =
           some (String.mk ((serializeCacheEntry queries now).data.take k))) := by
  constructor
  · exact getLast?_cons_of_getLast? _ _ _ (writeStates_getLast? _ _ _)
  · intro g hg
    rcases List.mem_cons.mp hg with hg | hg
    · subst hg
      exact ⟨rfl, Or.inl (by rw [mkdirIfAbsent_files])⟩
    · obtain ⟨k, hk, rfl⟩ := List.mem_map.mp hg
      rw [List.mem_range] at hk
      refine ⟨rfl, Or.inr ⟨k, by omega, ?_⟩⟩
      show (if _ = _ then _ else _) = _
      rw [if_pos rfl]

/-- Concrete instantiation of `store_queries_write_behavior`. -/
theorem store_queries_write_behavior_witness :
    (storeQueriesStates ⟨[], fun _ => none⟩ "c" "k" ["q"] "t").getLast? =
      some (setFile (mkdirIfAbsent ⟨[], fun _ => none⟩ "c")
        ("c" ++ "/" ++ "k" ++ ".json")
        (some (serializeCacheEntry ["q"] "t"))) ∧
    ∀ g ∈ storeQueriesStates ⟨[], fun _ => none⟩ "c" "k" ["q"] "t",
      g.dirs = (mkdirIfAbsent ⟨[], fun _ => none⟩ "c").dirs ∧
      (g.files ("c" ++ "/" ++ "k" ++ ".json") =
          Fs.files ⟨[], fun _ => none⟩ ("c" ++ "/" ++ "k" ++ ".json") ∨
       ∃ k ≤ (serializeCacheEntry ["q"] "t").length,
         g.files ("c" ++ "/" ++ "k" ++ ".json") =
           some (String.mk ((serializeCacheEntry ["q"] "t").data.take k))) :=
  store_queries_write_behavior ⟨[], fun _ => none⟩ "c" "k" ["q"] "t"

/-! ## Review engine (`src/tui/app.rs`)

The `App` state machine. `config` and `theme` (never read by the state
transitions) and `list_state` (kept in lock-step with `current_issue` by
every `select` call) are omitted; the `tokio::JoinHandle` of the in-flight
task is abstracted to the index it will report (`active_task` stores the
`issue_idx` of `ActiveTask`), and task completion is the externally
triggered event delivering the task's result. The `exists()` check on an
issue's backing file is an oracle `fe : String → Bool` passed to the key
handler. -/

/-- `IssueAction` (`src/tui/app.rs:42-49`). -/
inductive IssueAction where
  | pending
  | applying
  | skip
  | applied
  | error
deriving Repr, DecidableEq, BEq

/-- The key codes distinguished by `App::handle_key`
(`src/tui/app.rs:179-225`). -/
inductive KeyCode where
  | char (c : Char)
  | esc
  | down
  | up
  | enter
  | other
deriving Repr, DecidableEq

/-- The result of the background fix task as observed by
`check_task_completion` (`src/tui/app.rs:142-165`): `ok` and `err` are the
task's own `Ok`/`Err`, `joinErr` a join (panic) failure. -/
inductive TaskResult where
  | ok (msg : String)
  | err (e : String)
  | joinErr (e : String)
deriving Repr, DecidableEq

/-- `App` (`src/tui/app.rs:21-35`). -/
structure App where
  issues : List Issue
  current_issue : Nat
  show_help : Bool
  actions : List IssueAction
  should_quit : Bool
  should_abort : Bool
  status_message : Option String
  active_task : Option Nat
  spinner_frame : Nat
deriving Repr, DecidableEq

/-- `App::new` (`src/tui/app.rs:52-73`). -/
def App.new (issues : List Issue) : App where
  issues := issues
  current_issue := 0
  show_help := false
  actions := List.replicate issues.length IssueAction.pending
  should_quit := false
  should_abort := false
  status_message := none
  active_task := none
  spinner_frame := 0

/-- `App::next_issue` (`src/tui/app.rs:227-233`). -/
def App.nextIssue (s : App) : App :=
  if s.issues.isEmpty then s
  else { s with current_issue := (s.current_issue + 1) % s.issues.length }

/-- `App::prev_issue` (`src/tui/app.rs:235-245`). -/
def App.prevIssue (s : App) : App :=
  if s.issues.isEmpty then s
  else if s.current_issue = 0 then
    { s with current_issue := s.issues.length - 1 }
  else { s with current_issue := s.current_issue - 1 }

/-- `App::move_to_next_pending` (`src/tui/app.rs:167-177`): the first index
after the current one (wrapping) whose action is `Pending`, if any. -/
def App.moveToNextPending (s : App) : App :=
  match (List.range s.issues.length).find? (fun i =>
      s.actions[(s.current_issue + 1 + i) % s.issues.length]? ==
        some IssueAction.pending) with
  | some i =>
      { s with current_issue := (s.current_issue + 1 + i) % s.issues.length }
  | none => s

/-- `App::apply_current` (`src/tui/app.rs:247-283`): refuses when the
selection is out of range or a task is already active; with a missing
backing file only sets a status message; otherwise marks the selected issue
`Applying`, records the spawned task and sets the progress message. -/
def App.applyCurrent (fe : String → Bool) (s : App) : App :=
  if s.issues.length ≤ s.current_issue then s
  else if s.active_task.isSome then s
  else
    match s.issues[s.current_issue]? with
    | none => s
    | some issue =>
      if fe issue.file = false then
        { s with status_message := some ("File not found: " ++ issue.file) }
      else
        { s with
            actions := s.actions.set s.current_issue IssueAction.applying,
            active_task := some s.current_issue,
            status_message := some ("Generating fix for " ++ issue.file ++ "...") }

/-- `App::skip_current` (`src/tui/app.rs:285-290`). -/
def App.skipCurrent (s : App) : App :=
  if s.current_issue < s.actions.length then
    App.nextIssue { s with actions := s.actions.set s.current_issue IssueAction.skip }
  else s

/-- `App::confirm_and_continue` (`src/tui/app.rs:292-315`). -/
def App.confirmAndContinue (s : App) : App :=
  if s.active_task.isSome then s
  else if (s.actions.filter (fun a => a == IssueAction.pending)).length = 0 then
    { s with should_quit := true }
  else
    match s.actions.findIdx? (fun a => a == IssueAction.pending) with
    | some i => { s with current_issue := i }
    | none => s

/-- The opening of `App::handle_key` (`src/tui/app.rs:180-183`): clear the
status message on any key unless a task is running. -/
def App.clearStatusIfIdle (s : App) : App :=
  if s.active_task.isNone then { s with status_message := none } else s

/-- `App::handle_key` after the status-message clearing
(`src/tui/app.rs:185-224`): a key closes the help popup when it is open;
while a task is active only `q`/`Esc` (abort) are honoured; otherwise
dispatch to abort, navigation, apply, skip, confirm or help. -/
def App.handleKeyAfterClear (fe : String → Bool) (key : KeyCode) (s : App) : App :=
  if s.show_help then { s with show_help := false }
  else if s.active_task.isSome then
    match key with
    | KeyCode.char c => if c = 'q' then { s with should_abort := true } else s
    | KeyCode.esc => { s with should_abort := true }
    | _ => s
  else
    match key with
    | KeyCode.char c =>
      if c = 'q' then { s with should_abort := true }
      else if c = 'j' then s.nextIssue
      else if c = 'k' then s.prevIssue
      else if c = 'a' then s.applyCurrent fe
      else if c = 's' then s.skipCurrent
      else if c = '?' then { s with show_help := true }
      else s
    | KeyCode.esc => { s with should_abort := true }
    | KeyCode.down => s.nextIssue
    | KeyCode.up => s.prevIssue
    | KeyCode.enter => s.confirmAndContinue
    | KeyCode.other => s

/-- `App::handle_key` (`src/tui/app.rs:179-225`). -/
def App.handleKey (fe : String → Bool) (key : KeyCode) (s : App) : App :=
  App.handleKeyAfterClear fe key s.clearStatusIfIdle

/-- `App::check_task_completion` (`src/tui/app.rs:142-165`) at the moment
the in-flight task finishes: clear the task slot; on success mark the
task's issue `Applied` and advance to the next pending issue, on task error
or join error mark it `Error` and leave the selection unchanged. -/
def App.completeTask (res : TaskResult) (s : App) : App :=
  match s.active_task with
  | none => s
  | some idx =>
    let s := { s with active_task := none }
    match res with
    | TaskResult.ok msg =>
      App.moveToNextPending
        { s with
            actions := s.actions.set idx IssueAction.applied,
            status_message := some msg }
    | TaskResult.err e =>
      { s with
          actions := s.actions.set idx IssueAction.error,
          status_message := some ("Error: " ++ e) }
    | TaskResult.joinErr e =>
      { s with
          actions := s.actions.set idx IssueAction.error,
          status_message := some ("Task failed: " ++ e) }

/-- One step of the event loop (`App::run_loop`, `src/tui/app.rs:103-140`):
a key event, a spinner tick, or completion of the in-flight task. -/
inductive Step : App → App → Prop where
  | key : ∀ (s : App) (fe : String → Bool) (k : KeyCode),
      Step s (s.handleKey fe k)
  | tick : ∀ s : App, Step s { s with spinner_frame := (s.spinner_frame + 1) % 10 }
  | taskDone : ∀ (s : App) (res : TaskResult), Step s (s.completeTask res)

/-- Engine states reachable from some initial `App::new` state. -/
inductive Reachable : App → Prop where
  | init : ∀ issues : List Issue, Reachable (App.new issues)
  | step : ∀ {s s' : App}, Reachable s → Step s s' → Reachable s'

/-- The number of issues currently in `Applying`, as counted in
`src/tui/app.rs:359-363`. -/
def countApplying (l : List IssueAction) : Nat :=
  (l.filter (fun a => a == IssueAction.applying)).length

/-! ### Counting lemmas and the engine invariant -/

lemma beq_applying_iff (a : IssueAction) :
    (a == IssueAction.applying) = true ↔ a = IssueAction.applying := by
  cases a <;> decide

lemma countApplying_cons (a : IssueAction) (l : List IssueAction) :
    countApplying (a :: l) =
      (if a = IssueAction.applying then 1 else 0) + countApplying l := by
  unfold countApplying
  rw [List.filter_cons]
  by_cases h : a = IssueAction.applying
  · rw [if_pos ((beq_applying_iff a).mpr h), if_pos h, List.length_cons]
    omega
  · rw [if_neg (fun hb => h ((beq_applying_iff a).mp hb)), if_neg h]
    omega

lemma countApplying_replicate (n : Nat) :
    countApplying (List.replicate n IssueAction.pending) = 0 := by
  induction n with
  | zero => rfl
  | succ n ih =>
    rw [List.replicate_succ, countApplying_cons, if_neg (by decide)]
    simpa using ih

lemma countApplying_zero_get {l : List IssueAction} :
    ∀ {i : Nat} {a : IssueAction}, countApplying l = 0 → l[i]? = some a →
      a ≠ IssueAction.applying := by
  induction l with
  | nil => intro i a _ hget; simp at hget
  | cons c t ih =>
    intro i a hc hget
    rw [countApplying_cons] at hc
    cases i with
    | zero =>
      simp only [List.getElem?_cons_zero, Option.some.injEq] at hget
      subst hget
      intro hne
      rw [if_pos hne] at hc
      omega
    | succ j =>
      rw [List.getElem?_cons_succ] at hget
      exact ih (by omega) hget

lemma countApplying_set {l : List IssueAction} :
    ∀ {i : Nat} {a : IssueAction}, l[i]? = some a → ∀ b : IssueAction,
      countApplying (l.set i b) + (if a = IssueAction.applying then 1 else 0) =
        countApplying l + (if b = IssueAction.applying then 1 else 0) := by
  induction l with
  | nil => intro i a hget; simp at hget
  | cons c t ih =>
    intro i a hget b
    cases i with
    | zero =>
      simp only [List.getElem?_cons_zero, Option.some.injEq] at hget
      subst hget
      rw [List.set_cons_zero, countApplying_cons, countApplying_cons]
      omega
    | succ j =>
      rw [List.getElem?_cons_succ] at hget
      rw [List.set_cons_succ, countApplying_cons, countApplying_cons]
      have := ih hget b
      omega

/-- The inductive invariant of the review engine: the action list is as long
as the issue list, and the in-flight task slot is in lock-step with the
`Applying` actions — no task means no `Applying` issue, an in-flight task
means exactly one, namely the task's own issue. -/
def Inv (s : App) : Prop :=
  s.actions.length = s.issues.length ∧
  ((s.active_task = none ∧ countApplying s.actions = 0) ∨
   (∃ i, s.active_task = some i ∧
      s.actions[i]? = some IssueAction.applying ∧ countApplying s.actions = 1))

lemma inv_new (issues : List Issue) : Inv (App.new issues) :=
  ⟨List.length_replicate _ _, Or.inl ⟨rfl, countApplying_replicate _⟩⟩

lemma inv_of_same_core {s s' : App} (hact : s'.actions = s.actions)
    (hiss : s'.issues = s.issues) (htask : s'.active_task = s.active_task)
    (h : Inv s) : Inv s' := by
  unfold Inv
  rw [hact, hiss, htask]
  exact h

lemma inv_nextIssue (s : App) (h : Inv s) : Inv s.nextIssue := by
  unfold App.nextIssue
  split
  · exact h
  · exact inv_of_same_core rfl rfl rfl h

lemma inv_prevIssue (s : App) (h : Inv s) : Inv s.prevIssue := by
  unfold App.prevIssue
  split
  · exact h
  · split <;> exact inv_of_same_core rfl rfl rfl h

lemma inv_moveToNextPending (s : App) (h : Inv s) : Inv s.moveToNextPending := by
  unfold App.moveToNextPending
  split
  · exact inv_of_same_core rfl rfl rfl h
  · exact h

lemma inv_confirmAndContinue (s : App) (h : Inv s) : Inv s.confirmAndContinue := by
  unfold App.confirmAndContinue
  split
  · exact h
  · split
    · exact inv_of_same_core rfl rfl rfl h
    · split
      · exact inv_of_same_core rfl rfl rfl h
      · exact h

lemma inv_clearStatusIfIdle (s : App) (h : Inv s) : Inv s.clearStatusIfIdle := by
  unfold App.clearStatusIfIdle
  split
  · exact inv_of_same_core rfl rfl rfl h
  · exact h

lemma task_none_of_not_isSome {s : App} (hts : ¬ s.active_task.isSome = true) :
    s.active_task = none := by
  cases he : s.active_task
  · rfl
  · rw [he] at hts; exact absurd rfl hts

lemma countApplying_zero_of_none {s : App} (htn : s.active_task = none)
    (h : Inv s) : countApplying s.actions = 0 := by
  rcases h.2 with ⟨-, h0⟩ | ⟨i, hi, -, -⟩
  · exact h0
  · rw [htn] at hi; exact absurd hi (by simp)

lemma inv_applyCurrent (fe : String → Bool) (s : App) (h : Inv s) :
    Inv (s.applyCurrent fe) := by
  unfold App.applyCurrent
  by_cases hge : s.issues.length ≤ s.current_issue
  · rw [if_pos hge]; exact h
  · rw [if_neg hge]
    by_cases hts : s.active_task.isSome = true
    · rw [if_pos hts]; exact h
    · rw [if_neg hts]
      have htn : s.active_task = none := task_none_of_not_isSome hts
      cases hgi : s.issues[s.current_issue]? with
      | none => exact h
      | some issue =>
        dsimp only
        by_cases hfe : fe issue.file = false
        · rw [if_pos hfe]
          exact inv_of_same_core rfl rfl rfl h
        · rw [if_neg hfe]
          have hc0 : countApplying s.actions = 0 :=
            countApplying_zero_of_none htn h
          have hcur : s.current_issue < s.actions.length := by
            rw [h.1]; omega
          obtain ⟨a, ha⟩ : ∃ a, s.actions[s.current_issue]? = some a :=
            ⟨_, List.getElem?_eq_getElem hcur⟩
          have hne := countApplying_zero_get hc0 ha
          have hset := countApplying_set ha IssueAction.applying
          rw [if_neg hne, if_pos rfl] at hset
          refine ⟨?_, Or.inr ⟨s.current_issue, rfl, ?_, ?_⟩⟩
          · show (s.actions.set s.current_issue IssueAction.applying).length =
              s.issues.length
            rw [List.length_set]; exact h.1
          · show (s.actions.set s.current_issue
                IssueAction.applying)[s.current_issue]? =
              some IssueAction.applying
            exact List.getElem?_set_eq_of_lt _ hcur
          · show countApplying
              (s.actions.set s.current_issue IssueAction.applying) = 1
            omega

lemma inv_skipCurrent (s : App) (htask : s.active_task = none) (h : Inv s) :
    Inv s.skipCurrent := by
  unfold App.skipCurrent
  split
  · rename_i hlt
    refine inv_nextIssue _ ?_
    have hc0 : countApplying s.actions = 0 := countApplying_zero_of_none htask h
    obtain ⟨a, ha⟩ : ∃ a, s.actions[s.current_issue]? = some a :=
      ⟨_, List.getElem?_eq_getElem hlt⟩
    have hne := countApplying_zero_get hc0 ha
    have hset := countApplying_set ha IssueAction.skip
    rw [if_neg hne, if_neg (by decide : ¬ (IssueAction.skip = IssueAction.applying))]
      at hset
    refine ⟨?_, Or.inl ⟨htask, ?_⟩⟩
    · show (s.actions.set s.current_issue IssueAction.skip).length = s.issues.length
      rw [List.length_set]; exact h.1
    · show countApplying (s.actions.set s.current_issue IssueAction.skip) = 0
      omega
  · exact h

lemma inv_completeTask (res : TaskResult) (s : App) (h : Inv s) :
    Inv (s.completeTask res) := by
  unfold App.completeTask
  cases htask : s.active_task with
  | none => exact h
  | some idx =>
    rcases h.2 with ⟨hn, -⟩ | ⟨i, hi, hget, hc1⟩
    · rw [htask] at hn; exact absurd hn (by simp)
    · rw [htask] at hi
      injection hi with hi
      subst hi
      cases res with
      | ok msg =>
        refine inv_moveToNextPending _ ⟨?_, Or.inl ⟨rfl, ?_⟩⟩
        · show (s.actions.set idx IssueAction.applied).length = s.issues.length
          rw [List.length_set]; exact h.1
        · show countApplying (s.actions.set idx IssueAction.applied) = 0
          have hs2 := countApplying_set hget IssueAction.applied
          rw [if_pos rfl, if_neg (by decide)] at hs2
          omega
      | err e =>
        refine ⟨?_, Or.inl ⟨rfl, ?_⟩⟩
        · show (s.actions.set idx IssueAction.error).length = s.issues.length
          rw [List.length_set]; exact h.1
        · show countApplying (s.actions.set idx IssueAction.error) = 0
          have hs2 := countApplying_set hget IssueAction.error
          rw [if_pos rfl, if_neg (by decide)] at hs2
          omega
      | joinErr e =>
        refine ⟨?_, Or.inl ⟨rfl, ?_⟩⟩
        · show (s.actions.set idx IssueAction.error).length = s.issues.length
          rw [List.length_set]; exact h.1
        · show countApplying (s.actions.set idx IssueAction.error) = 0
          have hs2 := countApplying_set hget IssueAction.error
          rw [if_pos rfl, if_neg (by decide)] at hs2
          omega

lemma inv_handleKeyAfterClear (fe : String → Bool) (k : KeyCode) (s : App)
    (h : Inv s) : Inv (s.handleKeyAfterClear fe k) := by
  unfold App.handleKeyAfterClear
  by_cases hsh : s.show_help = true
  · rw [if_pos hsh]
    exact inv_of_same_core rfl rfl rfl h
  · rw [if_neg hsh]
    by_cases hts : s.active_task.isSome = true
    · rw [if_pos hts]
      cases k with
      | char c =>
        dsimp only
        split
        · exact inv_of_same_core rfl rfl rfl h
        · exact h
      | esc => exact inv_of_same_core rfl rfl rfl h
      | down => exact h
      | up => exact h
      | enter => exact h
      | other => exact h
    · rw [if_neg hts]
      have htn : s.active_task = none := task_none_of_not_isSome hts
      cases k with
      | char c =>
        dsimp only
        by_cases h1 : c = 'q'
        · rw [if_pos h1]; exact inv_of_same_core rfl rfl rfl h
        · rw [if_neg h1]
          by_cases h2 : c = 'j'
          · rw [if_pos h2]; exact inv_nextIssue _ h
          · rw [if_neg h2]
            by_cases h3 : c = 'k'
            · rw [if_pos h3]; exact inv_prevIssue _ h
            · rw [if_neg h3]
              by_cases h4 : c = 'a'
              · rw [if_pos h4]; exact inv_applyCurrent _ _ h
              · rw [if_neg h4]
                by_cases h5 : c = 's'
                · rw [if_pos h5]; exact inv_skipCurrent _ htn h
                · rw [if_neg h5]
                  by_cases h6 : c = '?'
                  · rw [if_pos h6]; exact inv_of_same_core rfl rfl rfl h
                  · rw [if_neg h6]; exact h
      | esc => exact inv_of_same_core rfl rfl rfl h
      | down => exact inv_nextIssue _ h
      | up => exact inv_prevIssue _ h
      | enter => exact inv_confirmAndContinue _ h
      | other => exact h

lemma inv_handleKey (fe : String → Bool) (k : KeyCode) (s : App) (h : Inv s) :
    Inv (s.handleKey fe k) :=
  inv_handleKeyAfterClear _ _ _ (inv_clearStatusIfIdle _ h)

lemma inv_step {s s' : App} (hs : Step s s') (h : Inv s) : Inv s' := by
  cases hs with
  | key fe k => exact inv_handleKey fe k s h
  | tick => exact inv_of_same_core rfl rfl rfl h
  | taskDone res => exact inv_completeTask res s h

/-- Every reachable engine state satisfies the inductive invariant. -/
theorem reachable_inv {s : App} (h : Reachable s) : Inv s := by
  induction h with
  | init issues => exact inv_new issues
  | step _ hs ih => exact inv_step hs ih

/-! ### Helper computation lemmas for the key handler -/

lemma clearStatus_of_task_some {s : App} {i : Nat} (hts : s.active_task = some i) :
    s.clearStatusIfIdle = s := by
  unfold App.clearStatusIfIdle
  rw [hts]
  rfl

lemma handleKey_actions_of_task_some {s : App} {j : Nat}
    (hts : s.active_task = some j) (fe : String → Bool) (k : KeyCode) :
    (s.handleKey fe k).actions = s.actions := by
  unfold App.handleKey
  rw [clearStatus_of_task_some hts]
  unfold App.handleKeyAfterClear
  by_cases hsh : s.show_help = true
  · rw [if_pos hsh]
  · rw [if_neg hsh, if_pos (by rw [hts]; rfl)]
    cases k with
    | char c =>
      dsimp only
      split <;> rfl
    | esc => rfl
    | down => rfl
    | up => rfl
    | enter => rfl
    | other => rfl

lemma nextIssue_actions (s : App) : s.nextIssue.actions = s.actions := by
  unfold App.nextIssue
  split <;> rfl

lemma moveToNextPending_actions (s : App) :
    s.moveToNextPending.actions = s.actions := by
  unfold App.moveToNextPending
  split <;> rfl

lemma handleKeyAfterClear_idle_char_a (t : App) (fe : String → Bool)
    (htask : t.active_task = none) (hsh : t.show_help = false) :
    t.handleKeyAfterClear fe (KeyCode.char 'a') = t.applyCurrent fe := by
  unfold App.handleKeyAfterClear
  rw [if_neg (by rw [hsh]; exact Bool.false_ne_true),
      if_neg (by rw [htask]; exact Bool.false_ne_true)]
  dsimp only
  rw [if_neg (by decide : ¬ ('a' = 'q')), if_neg (by decide : ¬ ('a' = 'j')),
      if_neg (by decide : ¬ ('a' = 'k')), if_pos (rfl : 'a' = 'a')]

lemma handleKeyAfterClear_idle_char_s (t : App) (fe : String → Bool)
    (htask : t.active_task = none) (hsh : t.show_help = false) :
    t.handleKeyAfterClear fe (KeyCode.char 's') = t.skipCurrent := by
  unfold App.handleKeyAfterClear
  rw [if_neg (by rw [hsh]; exact Bool.false_ne_true),
      if_neg (by rw [htask]; exact Bool.false_ne_true)]
  dsimp only
  rw [if_neg (by decide : ¬ ('s' = 'q')), if_neg (by decide : ¬ ('s' = 'j')),
      if_neg (by decide : ¬ ('s' = 'k')), if_neg (by decide : ¬ ('s' = 'a')),
      if_pos (rfl : 's' = 's')]

lemma clearStatus_of_task_none {s : App} (htask : s.active_task = none) :
    s.clearStatusIfIdle = { s with status_message := none } := by
  unfold App.clearStatusIfIdle
  rw [if_pos (by rw [htask]; rfl)]

lemma completeTask_actions_get {s : App} {i : Nat} (hts : s.active_task = some i)
    (hlt : i < s.actions.length) (res : TaskResult) :
    (s.completeTask res).actions[i]? =
      some (match res with
        | TaskResult.ok _ => IssueAction.applied
        | TaskResult.err _ => IssueAction.error
        | TaskResult.joinErr _ => IssueAction.error) := by
  unfold App.completeTask
  rw [hts]
  cases res with
  | ok msg =>
    rw [moveToNextPending_actions]
    dsimp only
    exact List.getElem?_set_eq_of_lt _ hlt
  | err e =>
    dsimp only
    exact List.getElem?_set_eq_of_lt _ hlt
  | joinErr e =>
    dsimp only
    exact List.getElem?_set_eq_of_lt _ hlt

/-! ### Claim theorems for the review engine -/

/-- C1: in every reachable engine state at most one issue is `Applying`, and
an apply key pressed while an issue is `Applying` is a no-op — every state
component except (possibly) the help popup flag is unchanged, no issue's
action changes and no new task is spawned. -/
theorem at_most_one_applying :
    (∀ s : App, Reachable s → countApplying s.actions ≤ 1) ∧
    (∀ (s : App) (fe : String → Bool), Reachable s →
      1 ≤ countApplying s.actions →
      ((s.handleKey fe (KeyCode.char 'a')).actions = s.actions ∧
       (s.handleKey fe (KeyCode.char 'a')).active_task = s.active_task ∧
       (s.handleKey fe (KeyCode.char 'a')).current_issue = s.current_issue ∧
       (s.handleKey fe (KeyCode.char 'a')).status_message = s.status_message ∧
       (s.handleKey fe (KeyCode.char 'a')).should_quit = s.should_quit ∧
       (s.handleKey fe (KeyCode.char 'a')).should_abort = s.should_abort)) := by
  constructor
  · intro s hr
    rcases (reachable_inv hr).2 with ⟨-, h0⟩ | ⟨i, -, -, h1⟩
    · omega
    · omega
  · intro s fe hr hcount
    rcases (reachable_inv hr).2 with ⟨-, h0⟩ | ⟨i, hts, -, -⟩
    · omega
    · unfold App.handleKey
      rw [clearStatus_of_task_some hts]
      unfold App.handleKeyAfterClear
      by_cases hsh : s.show_help = true
      · rw [if_pos hsh]
        exact ⟨rfl, rfl, rfl, rfl, rfl, rfl⟩
      · rw [if_neg hsh, if_pos (by rw [hts]; rfl)]
        dsimp only
        rw [if_neg (by decide : ¬ ('a' = 'q'))]
        exact ⟨rfl, rfl, rfl, rfl, rfl, rfl⟩

def issueW : Issue := ⟨"doc.md", 3, "stale docs", "", none⟩

def issueW2 : Issue := ⟨"other.md", 7, "more stale docs", "", none⟩

/-- `App::new [issueW]` after one accepted apply key. -/
def appW : App := (App.new [issueW]).handleKey (fun _ => true) (KeyCode.char 'a')

lemma reachable_appW : Reachable appW :=
  Reachable.step (Reachable.init [issueW])
    (Step.key (App.new [issueW]) (fun _ => true) (KeyCode.char 'a'))

/-- Concrete instantiation of `at_most_one_applying`: a reachable state with
an issue in `Applying`. -/
theorem at_most_one_applying_witness :
    countApplying appW.actions ≤ 1 ∧
    1 ≤ countApplying appW.actions ∧
    ((appW.handleKey (fun _ => true) (KeyCode.char 'a')).actions = appW.actions ∧
     (appW.handleKey (fun _ => true) (KeyCode.char 'a')).active_task = appW.active_task ∧
     (appW.handleKey (fun _ => true) (KeyCode.char 'a')).current_issue = appW.current_issue ∧
     (appW.handleKey (fun _ => true) (KeyCode.char 'a')).status_message = appW.status_message ∧
     (appW.handleKey (fun _ => true) (KeyCode.char 'a')).should_quit = appW.should_quit ∧
     (appW.handleKey (fun _ => true) (KeyCode.char 'a')).should_abort = appW.should_abort) :=
  ⟨at_most_one_applying.1 appW reachable_appW, by decide,
   at_most_one_applying.2 appW (fun _ => true) reachable_appW (by decide)⟩

/-- `App::new [issueW, issueW2]` after one accepted apply key: a state with a
task in flight and two issues. -/
def appNav : App :=
  (App.new [issueW, issueW2]).handleKey (fun _ => true) (KeyCode.char 'a')

/-- C2 counterexample: while a fix task is in flight, a next-navigation key
does not change the selected issue (the key is ignored), although the same
key does advance the selection when no task is active — navigation is not
accepted during a background task, contrary to the claim. -/
theorem nav_during_task_cex :
    appNav.active_task = some 0 ∧
    appNav.current_issue = 0 ∧
    ((App.new [issueW, issueW2]).handleKey (fun _ => true)
        (KeyCode.char 'j')).current_issue = 1 ∧
    (appNav.handleKey (fun _ => true) (KeyCode.char 'j')).current_issue = 0 :=
  ⟨rfl, rfl, rfl, rfl⟩

/-- C2 amended: while a fix task is in flight the engine still accepts abort
(`q` or `Esc` set the abort flag), but navigation keys are ignored — with the
help popup closed, a `j`/`k`/`Down`/`Up` key leaves the state completely
unchanged. -/
theorem abort_accepted_nav_ignored_during_task (s : App) (fe : String → Bool)
    {i : Nat} (hts : s.active_task = some i) (hsh : s.show_help = false) :
    (s.handleKey fe KeyCode.esc).should_abort = true ∧
    (s.handleKey fe (KeyCode.char 'q')).should_abort = true ∧
    s.handleKey fe (KeyCode.char 'j') = s ∧
    s.handleKey fe (KeyCode.char 'k') = s ∧
    s.handleKey fe KeyCode.down = s ∧
    s.handleKey fe KeyCode.up = s := by
  have hstep : ∀ k : KeyCode, s.handleKey fe k = s.handleKeyAfterClear fe k := by
    intro k
    unfold App.handleKey
    rw [clearStatus_of_task_some hts]
  have hbranch : ∀ k : KeyCode, s.handleKeyAfterClear fe k =
      match k with
      | KeyCode.char c => if c = 'q' then { s with should_abort := true } else s
      | KeyCode.esc => { s with should_abort := true }
      | _ => s := by
    intro k
    unfold App.handleKeyAfterClear
    rw [if_neg (by rw [hsh]; exact Bool.false_ne_true), if_pos (by rw [hts]; rfl)]
  refine ⟨?_, ?_, ?_, ?_, ?_, ?_⟩
  · rw [hstep, hbranch]
  · rw [hstep, hbranch]; rfl
  · rw [hstep, hbranch]; rfl
  · rw [hstep, hbranch]; rfl
  · rw [hstep, hbranch]
  · rw [hstep, hbranch]

/-- Concrete instantiation of `abort_accepted_nav_ignored_during_task`. -/
theorem abort_accepted_nav_ignored_during_task_witness :
    (appNav.handleKey (fun _ => true) KeyCode.esc).should_abort = true ∧
    (appNav.handleKey (fun _ => true) (KeyCode.char 'q')).should_abort = true ∧
    appNav.handleKey (fun _ => true) (KeyCode.char 'j') = appNav ∧
    appNav.handleKey (fun _ => true) (KeyCode.char 'k') = appNav ∧
    appNav.handleKey (fun _ => true) KeyCode.down = appNav ∧
    appNav.handleKey (fun _ => true) KeyCode.up = appNav :=
  abort_accepted_nav_ignored_during_task appNav (fun _ => true) rfl rfl

/-- C3 counterexample: `Skip` is not terminal — skipping the only issue and
then pressing apply (with the backing file present) moves the issue from
`Skip` to `Applying`: user input can leave the `Skip` state. -/
theorem issue_action_terminality_cex :
    ((App.new [issueW]).handleKey (fun _ => true) (KeyCode.char 's')).actions =
      [IssueAction.skip] ∧
    (((App.new [issueW]).handleKey (fun _ => true) (KeyCode.char 's')).handleKey
        (fun _ => true) (KeyCode.char 'a')).actions = [IssueAction.applying] :=
  ⟨rfl, rfl⟩

/-- C3 amended: `Applying` transitions only through background-task
completion — user input never moves an issue out of `Applying` (part 1), and
completion moves the task's issue to `Applied` on success and `Error` on
failure (part 2); but `Skip`, `Applied` and `Error` are not terminal: while
no task is in flight, apply moves the selected issue to `Applying` whenever
its file exists (part 3) and skip moves it to `Skip` (part 4), regardless of
the issue's current action. -/
theorem issue_action_transition_spec :
    (∀ (s : App) (fe : String → Bool) (k : KeyCode) (i : Nat), Reachable s →
      s.actions[i]? = some IssueAction.applying →
      (s.handleKey fe k).actions[i]? = some IssueAction.applying) ∧
    (∀ (s : App) (res : TaskResult) (i : Nat), Reachable s →
      s.active_task = some i →
      (s.completeTask res).actions[i]? =
        some (match res with
          | TaskResult.ok _ => IssueAction.applied
          | TaskResult.err _ => IssueAction.error
          | TaskResult.joinErr _ => IssueAction.error)) ∧
    (∀ (s : App) (fe : String → Bool) (issue : Issue),
      s.active_task = none → s.show_help = false →
      s.issues[s.current_issue]? = some issue → fe issue.file = true →
      s.current_issue < s.actions.length →
      (s.handleKey fe (KeyCode.char 'a')).actions[s.current_issue]? =
        some IssueAction.applying) ∧
    (∀ (s : App) (fe : String → Bool), s.active_task = none → s.show_help = false →
      s.current_issue < s.actions.length →
      (s.handleKey fe (KeyCode.char 's')).actions[s.current_issue]? =
        some IssueAction.skip) := by
  refine ⟨?_, ?_, ?_, ?_⟩
  · intro s fe k i hr hget
    rcases (reachable_inv hr).2 with ⟨-, h0⟩ | ⟨j, htsj, -, -⟩
    · exact absurd rfl (countApplying_zero_get h0 hget)
    · rw [handleKey_actions_of_task_some htsj]
      exact hget
  · intro s res i hr hts
    rcases (reachable_inv hr).2 with ⟨htn, -⟩ | ⟨j, htsj, hget, -⟩
    · rw [htn] at hts; exact Option.noConfusion hts
    · rw [htsj] at hts
      injection hts with hij
      subst hij
      have hlt : j < s.actions.length := by
        by_contra hge
        rw [List.getElem?_eq_none (by omega)] at hget
        exact Option.noConfusion hget
      exact completeTask_actions_get htsj hlt res
  · intro s fe issue htask hsh hget hfe hcur
    have hcur2 : s.current_issue < s.issues.length := by
      by_contra hge
      rw [List.getElem?_eq_none (by omega)] at hget
      exact Option.noConfusion hget
    unfold App.handleKey
    rw [clearStatus_of_task_none htask,
        handleKeyAfterClear_idle_char_a { s with status_message := none } fe
          (by exact htask) (by exact hsh)]
    unfold App.applyCurrent
    dsimp only
    rw [if_neg (by omega : ¬ s.issues.length ≤ s.current_issue),
        if_neg (by rw [htask]; exact Bool.false_ne_true), hget]
    dsimp only
    rw [if_neg (by rw [hfe]; decide)]
    dsimp only
    exact List.getElem?_set_eq_of_lt _ hcur
  · intro s fe htask hsh hcur
    unfold App.handleKey
    rw [clearStatus_of_task_none htask,
        handleKeyAfterClear_idle_char_s { s with status_message := none } fe
          (by exact htask) (by exact hsh)]
    unfold App.skipCurrent
    dsimp only
    rw [if_pos hcur, nextIssue_actions]
    dsimp only
    exact List.getElem?_set_eq_of_lt _ hcur

/-- Concrete instantiation of `issue_action_transition_spec`. -/
theorem issue_action_transition_spec_witness :
    appW.actions[0]? = some IssueAction.applying ∧
    (appW.handleKey (fun _ => true) KeyCode.esc).actions[0]? =
      some IssueAction.applying ∧
    ((App.new [issueW]).handleKey (fun _ => true)
        (KeyCode.char 'a')).actions[0]? = some IssueAction.applying ∧
    ((App.new [issueW]).handleKey (fun _ => true)
        (KeyCode.char 's')).actions[0]? = some IssueAction.skip :=
  ⟨rfl,
   issue_action_transition_spec.1 appW (fun _ => true) KeyCode.esc 0
     reachable_appW rfl,
   issue_action_transition_spec.2.2.1 (App.new [issueW]) (fun _ => true) issueW
     rfl rfl rfl rfl (by decide),
   issue_action_transition_spec.2.2.2 (App.new [issueW]) (fun _ => true)
     rfl rfl (by decide)⟩

/-- C10: apply on the selected issue with no task in flight and a missing
backing file spawns no task and changes no issue's action — the whole effect
is a transient status message. -/
theorem apply_missing_file_status_only (s : App) (fe : String → Bool)
    (issue : Issue) (htask : s.active_task = none) (hsh : s.show_help = false)
    (hget : s.issues[s.current_issue]? = some issue)
    (hfe : fe issue.file = false) :
    s.handleKey fe (KeyCode.char 'a') =
      { s with status_message := some ("File not found: " ++ issue.file) } := by
  have hcur2 : s.current_issue < s.issues.length := by
    by_contra hge
    rw [List.getElem?_eq_none (by omega)] at hget
    exact Option.noConfusion hget
  unfold App.handleKey
  rw [clearStatus_of_task_none htask,
      handleKeyAfterClear_idle_char_a { s with status_message := none } fe
        (by exact htask) (by exact hsh)]
  unfold App.applyCurrent
  dsimp only
  rw [if_neg (by omega : ¬ s.issues.length ≤ s.current_issue),
      if_neg (by rw [htask]; exact Bool.false_ne_true), hget]
  dsimp only
  rw [if_pos hfe]

/-- Concrete instantiation of `apply_missing_file_status_only`. -/
theorem apply_missing_file_status_only_witness :
    (App.new [issueW]).active_task = none ∧
    (fun _ => false : String → Bool) issueW.file = false ∧
    (App.new [issueW]).handleKey (fun _ => false) (KeyCode.char 'a') =
      { App.new [issueW] with
          status_message := some ("File not found: " ++ issueW.file) } :=
  ⟨rfl, rfl,
   apply_missing_file_status_only (App.new [issueW]) (fun _ => false) issueW
     rfl rfl rfl rfl⟩

end Driftcheck
